import Mathlib

set_option linter.unusedVariables false

/-!
Shallow embedding of the pipeline graph engine of the repository:
the connection validator and the topological scheduler from
`src/utils/pipeline.ts`, and the sequential execution driver
(`handleExecute` in the application component).  All definitions are
translated from the TypeScript source; functions named as in the source.
-/

/-- Node status, from `CustomNodeData.status` and `TPipelineNode.data.status`
in `src/types/index.ts`: one of idle, running, completed, error. -/
inductive NodeStatus where
  | idle
  | running
  | completed
  | error
deriving DecidableEq, Repr

/-- `TPipelineEdge` from `src/types/index.ts`: id, source node id, target
node id.  The optional handle labels are not read by any engine code and
are omitted. -/
structure PipelineEdge where
  id : String
  source : String
  target : String
deriving DecidableEq, Repr

/-- `TPipelineNode` from `src/types/index.ts`: id, kind tag, display name,
2-D position.  The optional `data` payload (status / logs) is not read by
the scheduler and is omitted here; the driver keeps status on `RFNode`. -/
structure PipelineNode where
  id : String
  type : String
  name : String
  position : Int × Int
deriving DecidableEq, Repr

/-- `TExecutionLog` from `src/types/index.ts`.  The `Date.now()` wall-clock
timestamp is abstracted to `0`. -/
structure ExecutionLog where
  timestamp : Int
  nodeId : String
  nodeName : String
  message : String
deriving DecidableEq, Repr

/-! ## Graph Validator: `isValidConnection` (src/utils/pipeline.ts lines 6-58)

The source's inner `hasCycle` is a depth-first search carrying two mutable
sets `visited` and `recStack`; it reads its edges from the FUNCTION
PARAMETER `edges` (line 31: `edges.filter((e) => e.source === nodeId)`).
The `tempEdges` list and the `graph` record built at lines 43-52 are never
read by `hasCycle`; they are dead code, so the candidate edge is not part
of the searched edge set.  The embedding below reproduces exactly that.

`recStack` obeys a strict stack discipline (add on entry, delete on exit,
never added twice because of the early `recStack.has` return), so it is
modelled as a list whose membership coincides with the source's set.  The
recursion terminates because `visited` only grows; recursion depth is
bounded by the number of distinct reachable ids (at most `edges.length + 1`)
plus one frame, so fuel `edges.length + 2` makes the fueled recursion agree
with the source. -/

/-- The `for (const edge of outgoingEdges)` loop of `hasCycle`: run the
search `f` on each target in turn, threading the `visited` set, returning
`true` as soon as one call does. -/
def dfsChildren (f : List String → String → Bool × List String) :
    List String → List PipelineEdge → Bool × List String
  | visited, [] => (false, visited)
  | visited, e :: rest =>
    match f visited e.target with
    | (true, v) => (true, v)
    | (false, v) => dfsChildren f v rest

/-- The inner `hasCycle(nodeId)` of `isValidConnection`, with the mutable
`visited` and `recStack` sets passed explicitly and a fuel argument for the
recursion.  Exhausted fuel answers `false` (unreachable with the fuel used
in `isValidConnection`). -/
def hasCycle (edges : List PipelineEdge) :
    Nat → List String → List String → String → Bool × List String
  | 0, visited, _, _ => (false, visited)
  | fuel + 1, visited, recStack, nodeId =>
    if recStack.contains nodeId then (true, visited)
    else if visited.contains nodeId then (false, visited)
    else
      dfsChildren (fun v t => hasCycle edges fuel v (nodeId :: recStack) t)
        (nodeId :: visited)
        (edges.filter (fun e => e.source == nodeId))

/-- `isValidConnection(sourceId, targetId, edges)` from
src/utils/pipeline.ts lines 6-58: reject self-loops, then run the
depth-first search from `sourceId` over `edges` (NOT over the dead
`tempEdges`) with fresh `visited` / `recStack`, and accept iff it reports
no cycle. -/
def isValidConnection (sourceId targetId : String)
    (edges : List PipelineEdge) : Bool :=
  if sourceId == targetId then false
  else !(hasCycle edges (edges.length + 2) [] [] sourceId).1

/-! ## Reachability (analysis vocabulary for the validator claims) -/

/-- There is an edge from `a` to `b` in the edge list. -/
def edgeIn (edges : List PipelineEdge) (a b : String) : Prop :=
  ∃ e ∈ edges, e.source = a ∧ e.target = b

instance (edges : List PipelineEdge) (a b : String) :
    Decidable (edgeIn edges a b) := by
  unfold edgeIn
  infer_instance

/-- There is a directed path of at least one edge from `a` to `b`. -/
inductive Reach (edges : List PipelineEdge) : String → String → Prop where
  | single {a b : String} : edgeIn edges a b → Reach edges a b
  | cons {a b c : String} : edgeIn edges a b → Reach edges b c → Reach edges a c

/-- The edge set is acyclic: no directed path from a node back to itself. -/
def Acyclic (edges : List PipelineEdge) : Prop :=
  ∀ v, ¬ Reach edges v v

/-- The DFS stack below the current node forms a chain of edges ending at
the current node: the head of the stack has an edge to `u`, and so on down. -/
def chainUp (edges : List PipelineEdge) : String → List String → Prop
  | _, [] => True
  | u, v :: rest => edgeIn edges v u ∧ chainUp edges v rest

/-! ## Scheduler: `getExecutionOrder` (src/utils/pipeline.ts lines 63-114)

The source builds two JavaScript records keyed by node id.  Keys are
inserted in `nodes` iteration order by the initialisation loop (lines
72-75); a repeated id re-assigns and keeps its first insertion position, so
`Object.keys(inDegree)` is the list of node ids with later duplicates
removed.  The edge loop (lines 78-83) only touches edges whose two
endpoints are node ids, pushing `edge.target` onto `graph[edge.source]` in
edge order and incrementing `inDegree[edge.target]`.  The maps are
represented as functions, the key list separately. -/

/-- First-occurrence deduplication with an accumulator of already seen
ids: the iteration order of the keys of a JavaScript record populated in
list order. -/
def dedupAux : List String → List String → List String
  | _, [] => []
  | seen, x :: xs =>
    if seen.contains x then dedupAux seen xs
    else x :: dedupAux (x :: seen) xs

/-- The key list of `inDegree` / `graph`: node ids in input order, later
duplicates dropped. -/
def nodeKeys (nodes : List PipelineNode) : List String :=
  dedupAux [] (nodes.map (fun n => n.id))

/-- The edges considered by the scheduler: both endpoints pass the
`nodeIds.has` guard at line 79. -/
def filteredEdges (nodes : List PipelineNode) (edges : List PipelineEdge) :
    List PipelineEdge :=
  edges.filter (fun e =>
    (nodes.map (fun n => n.id)).contains e.source &&
    (nodes.map (fun n => n.id)).contains e.target)

/-- `graph[s]`: the targets pushed for source `s`, in edge order. -/
def graphOf (nodes : List PipelineNode) (edges : List PipelineEdge) :
    String → List String :=
  fun s => (filteredEdges nodes edges).filterMap
    (fun e => if e.source == s then some e.target else none)

/-- `inDegree[t]` after the build loop: the number of filtered edges into
`t` (0 for every node never incremented).  Kept as `Int` because the
processing loop decrements with JavaScript number semantics. -/
def inDegreeOf (nodes : List PipelineNode) (edges : List PipelineEdge) :
    String → Int :=
  fun t => ((filteredEdges nodes edges).filter (fun e => e.target == t)).length

/-- The initial queue (lines 86-91): all keys of `inDegree` with in-degree
0, in key order. -/
def seedQueue (nodes : List PipelineNode) (edges : List PipelineEdge) :
    List String :=
  (nodeKeys nodes).filter (fun k => inDegreeOf nodes edges k == 0)

/-- The `graph[current].forEach` body (lines 100-105): decrement each
neighbor's in-degree and enqueue it the instant it reaches 0. -/
def processNeighbors : (String → Int) → List String → List String →
    (String → Int) × List String
  | inDeg, queue, [] => (inDeg, queue)
  | inDeg, queue, n :: rest =>
    let d := inDeg n - 1
    processNeighbors (fun x => if x == n then d else inDeg x)
      (if d == 0 then queue ++ [n] else queue) rest

/-- The `while (queue.length > 0)` loop (lines 96-106): dequeue the front
node, append it to the order, process its neighbors.  One fuel unit per
iteration; every node is enqueued at most once, so `nodes.length + 1` fuel
(used below) always reaches the empty-queue exit. -/
def kahnLoop (graph : String → List String) :
    Nat → (String → Int) → List String → List String → List String
  | 0, _, _, order => order
  | fuel + 1, inDeg, queue, order =>
    match queue with
    | [] => order
    | current :: restQ =>
      let p := processNeighbors inDeg restQ (graph current)
      kahnLoop graph fuel p.1 p.2 (order ++ [current])

/-- The complete `executionOrder` computed by the loop. -/
def kahnOrder (nodes : List PipelineNode) (edges : List PipelineEdge) :
    List String :=
  kahnLoop (graphOf nodes edges) (nodes.length + 1) (inDegreeOf nodes edges)
    (seedQueue nodes edges) []

/-- `getExecutionOrder(nodes, edges)` from src/utils/pipeline.ts lines
63-114: return the Kahn order, or throw (here: `Except.error` with the
source's message) when it does not cover every node (lines 109-111). -/
def getExecutionOrder (nodes : List PipelineNode)
    (edges : List PipelineEdge) : Except String (List String) :=
  if (kahnOrder nodes edges).length = nodes.length then
    Except.ok (kahnOrder nodes edges)
  else Except.error "Pipeline contains cycles or disconnected nodes"

/-! ## Step performer and Execution Driver

`handleExecute` (the `useCallback` in the application component) drives the
run.  React state (`nodes`, `logs`, `isExecuting`) is modelled as an
explicit `AppState`; each `setNodes` / `setLogs` dispatch inside the run is
one functional update, and the driver also returns the list of state
snapshots after each in-run mutation (the status/log stream the component
renders).  The `node` looked up inside the loop comes from the callback's
closed-over `nodes` value (the node set at run start), exactly as in the
source.  The step performer is the awaited work between the `running` and
`completed` status writes; the source hardwires the infallible
`simulateNodeExecution`, and the driver is parametrised over a possibly
failing performer so that the `catch` branch (which also catches the
scheduler's throw) is reachable from a step. -/

/-- `simulateNodeExecution(nodeId, nodeName, nodeType)` from
src/utils/pipeline.ts lines 119-139: a fixed message per known kind tag,
a generic fallback otherwise.  `Date.now()` is abstracted to `0`. -/
def simulateNodeExecution (nodeId nodeName nodeType : String) :
    ExecutionLog :=
  let message :=
    if nodeType == "Data Source" then
      "Data Source \"" ++ nodeName ++ "\" processed 100 records"
    else if nodeType == "Transformer" then
      "Transformer \"" ++ nodeName ++ "\" applied transformation"
    else if nodeType == "Model" then
      "Model \"" ++ nodeName ++ "\" generated predictions"
    else if nodeType == "Sink" then
      "Sink \"" ++ nodeName ++ "\" saved results"
    else "Node \"" ++ nodeName ++ "\" executed"
  { timestamp := 0, nodeId := nodeId, nodeName := nodeName,
    message := message }

/-- A React Flow node as the application stores it: id plus the
`data` payload (`label`, `type`, `status`) and a position. -/
structure RFNode where
  id : String
  label : String
  type : String
  status : NodeStatus
  position : Int × Int
deriving DecidableEq, Repr

/-- The component state read and written by `handleExecute`. -/
structure AppState where
  nodes : List RFNode
  logs : List ExecutionLog
  isExecuting : Bool
deriving DecidableEq, Repr

/-- One `setNodes(prev.map(...))` status write: set the status of every
node whose id matches. -/
def setStatus (ns : List RFNode) (nodeId : String) (st : NodeStatus) :
    List RFNode :=
  ns.map (fun n => if n.id == nodeId then { n with status := st } else n)

/-- The state after the three run-start dispatches: `setIsExecuting(true)`,
`setLogs([])`, and the reset of every node status to idle. -/
def startState (s : AppState) : AppState :=
  { nodes := s.nodes.map (fun n => { n with status := NodeStatus.idle }),
    logs := [], isExecuting := true }

/-- The `pipelineNodes` mapping at the top of the `try` block: domain
nodes built from the closed-over React nodes. -/
def toPipelineNodes (ns : List RFNode) : List PipelineNode :=
  ns.map (fun n =>
    { id := n.id, type := n.type, name := n.label, position := n.position })

/-- The system-level log entry built in the `catch` block. -/
def systemErrorLog (msg : String) : ExecutionLog :=
  { timestamp := 0, nodeId := "", nodeName := "System",
    message := "Error: " ++ msg }

/-- The `for` loop over the execution order.  Per id: skip when the id is
absent from the run-start node set (`if (!node) continue`); otherwise set
status running (snapshot), run the performer, and on success append its
log (snapshot) and set status completed (snapshot).  A performer error
aborts the loop, handing the message to the caller's `catch` (the running
snapshot has already been dispatched).  Returns the final state, the
escaping error if any, and the snapshots in dispatch order. -/
def runLoop (initialNodes : List RFNode)
    (perform : String → String → String → Except String ExecutionLog) :
    List String → AppState → AppState × Option String × List AppState
  | [], s => (s, none, [])
  | nodeId :: rest, s =>
    match initialNodes.find? (fun n => n.id == nodeId) with
    | none => runLoop initialNodes perform rest s
    | some node =>
      let s1 : AppState :=
        { s with nodes := setStatus s.nodes nodeId NodeStatus.running }
      match perform node.id node.label node.type with
      | Except.ok log =>
        let s2 : AppState := { s1 with logs := s1.logs ++ [log] }
        let s3 : AppState :=
          { s2 with nodes := setStatus s2.nodes nodeId NodeStatus.completed }
        let r := runLoop initialNodes perform rest s3
        (r.1, r.2.1, s1 :: s2 :: s3 :: r.2.2)
      | Except.error msg => (s1, some msg, [s1])

/-- `handleExecute`: refuse an empty node set (early return before any
state write); otherwise reset state, compute the order, walk it, catch a
scheduler or step error into one system log entry, and clear the
run-active flag in `finally`.  Returns the final state and the in-run
snapshot list. -/
def handleExecute (s : AppState) (edges : List PipelineEdge)
    (perform : String → String → String → Except String ExecutionLog) :
    AppState × List AppState :=
  if s.nodes.length = 0 then (s, [])
  else
    let s1 := startState s
    match getExecutionOrder (toPipelineNodes s.nodes) edges with
    | Except.error msg =>
      let s2 : AppState := { s1 with logs := s1.logs ++ [systemErrorLog msg] }
      let s3 : AppState := { s2 with isExecuting := false }
      (s3, [s1, s2, s3])
    | Except.ok order =>
      let r := runLoop s.nodes perform order s1
      match r.2.1 with
      | none =>
        let fin : AppState := { r.1 with isExecuting := false }
        (fin, s1 :: r.2.2 ++ [fin])
      | some msg =>
        let s2 : AppState := { r.1 with logs := r.1.logs ++ [systemErrorLog msg] }
        let s3 : AppState := { s2 with isExecuting := false }
        (s3, s1 :: r.2.2 ++ [s2, s3])

/-- The run-start nodes that the loop actually executes for a given order:
ids found in the node set, in order position. -/
def executedNodes (ns : List RFNode) (order : List String) : List RFNode :=
  order.filterMap (fun nid => ns.find? (fun n => n.id == nid))

/-! ## Validator lemmas -/

theorem Reach.snoc {E : List PipelineEdge} {a b c : String}
    (h : Reach E a b) (hbc : edgeIn E b c) : Reach E a c := by
  induction h with
  | single hab => exact Reach.cons hab (Reach.single hbc)
  | cons hab _ ih => exact Reach.cons hab (ih hbc)

theorem chainUp_reach {E : List PipelineEdge} :
    ∀ (stack : List String) (u v : String), chainUp E u stack → v ∈ stack →
      Reach E v u := by
  intro stack
  induction stack with
  | nil => intro u v _ hv; cases hv
  | cons w rest ih =>
    intro u v hchain hv
    obtain ⟨hw, hc⟩ := hchain
    rcases List.mem_cons.mp hv with h | h
    · subst h; exact Reach.single hw
    · exact (ih w v hc h).snoc hw

theorem dfsChildren_sound {P : Prop}
    (f : List String → String → Bool × List String) :
    ∀ (l : List PipelineEdge) (visited : List String),
      (∀ (v : List String) (e : PipelineEdge), e ∈ l →
        (f v e.target).1 = true → P) →
      (dfsChildren f visited l).1 = true → P := by
  intro l
  induction l with
  | nil => intro visited _ h; simp [dfsChildren] at h
  | cons e rest ih =>
    intro visited hf h
    rw [dfsChildren] at h
    rcases hres : f visited e.target with ⟨b, v⟩
    rw [hres] at h
    cases b with
    | true => exact hf visited e (List.mem_cons_self e rest) (by rw [hres])
    | false =>
      exact ih v (fun v' e' he' => hf v' e' (List.mem_cons_of_mem e he')) h

theorem hasCycle_sound (E : List PipelineEdge) :
    ∀ (fuel : Nat) (visited stack : List String) (u : String),
      chainUp E u stack → (hasCycle E fuel visited stack u).1 = true →
      ∃ c, Reach E c c := by
  intro fuel
  induction fuel with
  | zero => intro visited stack u _ h; simp [hasCycle] at h
  | succ fuel ih =>
    intro visited stack u hchain h
    rw [hasCycle] at h
    by_cases hstk : stack.contains u
    · have hu : u ∈ stack := by
        simpa using hstk
      exact ⟨u, chainUp_reach stack u u hchain hu⟩
    · rw [if_neg hstk] at h
      by_cases hvis : visited.contains u
      · rw [if_pos hvis] at h; simp at h
      · rw [if_neg hvis] at h
        refine dfsChildren_sound _ _ _ ?_ h
        intro v e he htrue
        have hmem := List.mem_filter.mp he
        have hsrc : e.source = u := by
          simpa using hmem.2
        refine ih v (u :: stack) e.target ?_ htrue
        exact ⟨⟨e, hmem.1, hsrc, rfl⟩, hchain⟩

/-- C1: the claim states that `isValidConnection(a, b, E)` is false
whenever `E` has a path from `b` to `a`.  The code violates it: on the
repository's own test input (`pipeline.test.ts`, "should reject
connections that create cycles": edge node2 → node1, candidate
node1 → node2) the DFS never traverses the candidate edge — the
`tempEdges` / `graph` values built for it are dead code — so the function
returns `true` and the test's expected `false` fails. -/
theorem c1_isValidConnection_cycle_bug :
    isValidConnection "node1" "node2"
      [{ id := "e1", source := "node2", target := "node1" }] = true := by
  rfl

/-- C7: a self-loop is always rejected, for every node id and every edge
set: the `sourceId === targetId` guard fires before the search. -/
theorem c7_self_loop_rejected (a : String) (E : List PipelineEdge) :
    isValidConnection a a E = false := by
  unfold isValidConnection
  simp

/-- C6: for every acyclic edge set and distinct `a`, `b` with no existing
path from `b` to `a`, the validator accepts the candidate edge `a → b`.
(The code accepts because its DFS over the existing edges alone finds no
cycle in an acyclic edge set; the hypotheses are those of the claim.) -/
theorem c6_acyclic_accepts (a b : String) (E : List PipelineEdge)
    (hacyc : Acyclic E) (hab : a ≠ b) (hnp : ¬ Reach E b a) :
    isValidConnection a b E = true := by
  unfold isValidConnection
  rw [if_neg (by simpa using hab : ¬ (a == b) = true)]
  rcases hres : (hasCycle E (E.length + 2) [] [] a).1 with _ | _
  · simp [hres]
  · exfalso
    obtain ⟨c, hc⟩ := hasCycle_sound E (E.length + 2) [] [] a trivial hres
    exact hacyc c hc

theorem reach_single_edge :
    ∀ c d, Reach [({ id := "e1", source := "x", target := "y" } :
      PipelineEdge)] c d → c = "x" ∧ d = "y" := by
  intro c d h
  induction h with
  | single hab =>
    obtain ⟨e, he, hs, ht⟩ := hab
    simp at he
    subst he
    exact ⟨hs.symm, ht.symm⟩
  | cons hab _ ih =>
    obtain ⟨e, he, hs, ht⟩ := hab
    simp at he
    subst he
    obtain ⟨h1, h2⟩ := ih
    rw [← ht] at h1
    exact absurd h1 (by decide)

/-- C6 witness: the hypotheses hold for the single acyclic edge x → y with
candidate x → y, and the validator accepts. -/
theorem c6_witness : isValidConnection "x" "y"
    [{ id := "e1", source := "x", target := "y" }] = true := by
  refine c6_acyclic_accepts "x" "y" _ ?_ ?_ ?_
  · intro v hv
    obtain ⟨h1, h2⟩ := reach_single_edge v v hv
    subst h1
    exact absurd h2 (by decide)
  · decide
  · intro h
    obtain ⟨h1, h2⟩ := reach_single_edge "y" "x" h
    exact absurd h1 (by decide)

/-! ## Scheduler lemmas -/

/-- Number of occurrences of `x` in a list of ids. -/
def occ (x : String) (l : List String) : Nat :=
  (l.filter (fun y => y == x)).length

theorem occ_nil (x : String) : occ x [] = 0 := rfl

theorem occ_cons (x y : String) (l : List String) :
    occ x (y :: l) = occ x l + (if y = x then 1 else 0) := by
  unfold occ
  rw [List.filter_cons]
  by_cases h : y = x
  · simp [h]
  · simp [h]

theorem occ_pos_iff (x : String) (l : List String) :
    0 < occ x l ↔ x ∈ l := by
  induction l with
  | nil => simp [occ_nil]
  | cons y ys ih =>
    rw [occ_cons, List.mem_cons]
    by_cases h : y = x
    · simp [h]
    · have hxy : ¬ x = y := fun hc => h hc.symm
      simp [h, hxy, ih]

theorem dedupAux_mem :
    ∀ (l seen : List String) (a : String),
      a ∈ dedupAux seen l ↔ a ∈ l ∧ a ∉ seen := by
  intro l
  induction l with
  | nil => simp [dedupAux]
  | cons x xs ih =>
    intro seen a
    rw [dedupAux]
    by_cases hx : seen.contains x
    · rw [if_pos hx]
      have hxs : x ∈ seen := by simpa using hx
      rw [ih]
      constructor
      · rintro ⟨h1, h2⟩
        exact ⟨List.mem_cons_of_mem x h1, h2⟩
      · rintro ⟨h1, h2⟩
        rcases List.mem_cons.mp h1 with h | h
        · subst h; exact absurd hxs h2
        · exact ⟨h, h2⟩
    · rw [if_neg hx]
      have hxs : x ∉ seen := by simpa using hx
      rw [List.mem_cons, ih]
      constructor
      · rintro (h | ⟨h1, h2⟩)
        · rw [h]; exact ⟨List.mem_cons_self x xs, hxs⟩
        · refine ⟨List.mem_cons_of_mem x h1, fun hc => h2 (List.mem_cons_of_mem x hc)⟩
      · rintro ⟨h1, h2⟩
        by_cases hax : a = x
        · exact Or.inl hax
        · rcases List.mem_cons.mp h1 with h | h
          · exact absurd h hax
          · refine Or.inr ⟨h, fun hc => ?_⟩
            rcases List.mem_cons.mp hc with h' | h'
            · exact hax h'
            · exact h2 h'

theorem dedupAux_nodup :
    ∀ (l seen : List String), (dedupAux seen l).Nodup := by
  intro l
  induction l with
  | nil => intro seen; simp [dedupAux]
  | cons x xs ih =>
    intro seen
    rw [dedupAux]
    by_cases hx : seen.contains x
    · rw [if_pos hx]; exact ih seen
    · rw [if_neg hx]
      refine List.nodup_cons.mpr ⟨fun hc => ?_, ih (x :: seen)⟩
      exact ((dedupAux_mem xs (x :: seen) x).mp hc).2 (List.mem_cons_self x seen)

theorem dedupAux_sublist :
    ∀ (l seen : List String), (dedupAux seen l).Sublist l := by
  intro l
  induction l with
  | nil => intro seen; simp [dedupAux]
  | cons x xs ih =>
    intro seen
    rw [dedupAux]
    by_cases hx : seen.contains x
    · rw [if_pos hx]
      exact (ih seen).cons x
    · rw [if_neg hx]
      exact (ih (x :: seen)).cons₂ x

theorem nodeKeys_mem (nodes : List PipelineNode) (a : String) :
    a ∈ nodeKeys nodes ↔ a ∈ nodes.map (fun n => n.id) := by
  unfold nodeKeys
  rw [dedupAux_mem]
  simp

theorem nodeKeys_nodup (nodes : List PipelineNode) :
    (nodeKeys nodes).Nodup :=
  dedupAux_nodup _ []

theorem nodeKeys_sublist (nodes : List PipelineNode) :
    (nodeKeys nodes).Sublist (nodes.map (fun n => n.id)) :=
  dedupAux_sublist _ []

theorem length_filter_mono {α : Type} (l : List α) (p q : α → Bool)
    (h : ∀ a, p a = true → q a = true) :
    (l.filter p).length ≤ (l.filter q).length := by
  induction l with
  | nil => simp
  | cons a xs ih =>
    rw [List.filter_cons, List.filter_cons]
    by_cases hp : p a = true
    · rw [if_pos hp, if_pos (h a hp)]
      simpa using ih
    · rw [if_neg hp]
      by_cases hq : q a = true
      · rw [if_pos hq]
        exact le_trans ih (Nat.le_succ _)
      · rw [if_neg hq]
        exact ih

theorem indexOf_append_new (l : List String) (a : String) (h : a ∉ l) :
    (l ++ [a]).indexOf a = l.length := by
  induction l with
  | nil => simp
  | cons x xs ih =>
    have hax : a ≠ x := by
      intro hc; exact h (hc ▸ List.mem_cons_self x xs)
    rw [List.cons_append, List.indexOf_cons_ne _ (fun hc => hax hc.symm)]
    rw [ih (fun hc => h (List.mem_cons_of_mem x hc))]
    simp

theorem processNeighbors_cons (inDeg : String → Int) (queue : List String)
    (n : String) (rest : List String) :
    processNeighbors inDeg queue (n :: rest) =
      processNeighbors (fun x => if x == n then inDeg n - 1 else inDeg x)
        (if (inDeg n - 1) == 0 then queue ++ [n] else queue) rest := rfl

theorem processNeighbors_spec :
    ∀ (l : List String) (inDeg : String → Int) (queue : List String),
      (∀ x, (occ x l : Int) ≤ inDeg x) →
      (∀ x ∈ queue, inDeg x = 0) →
      queue.Nodup →
      (∀ x, (processNeighbors inDeg queue l).1 x = inDeg x - (occ x l : Int)) ∧
      (∀ x, x ∈ (processNeighbors inDeg queue l).2 ↔
        (x ∈ queue ∨ (x ∈ l ∧ inDeg x = (occ x l : Int)))) ∧
      (processNeighbors inDeg queue l).2.Nodup := by
  intro l
  induction l with
  | nil =>
    intro inDeg queue h hq hnd
    refine ⟨fun x => by simp [processNeighbors, occ_nil], fun x => ?_, hnd⟩
    simp [processNeighbors, occ_nil]
  | cons n rest ih =>
    intro inDeg queue h hq hnd
    have hoccn : occ n (n :: rest) = occ n rest + 1 := by
      rw [occ_cons]; simp
    have hoccx : ∀ x, x ≠ n → occ x (n :: rest) = occ x rest := by
      intro x hx
      rw [occ_cons]
      have hnx : ¬ n = x := fun hc => hx hc.symm
      simp [hnx]
    have hnq : n ∉ queue := by
      intro hc
      have h0 := hq n hc
      have h1 := h n
      rw [hoccn] at h1
      push_cast at h1
      omega
    rw [processNeighbors_cons]
    set inDeg2 : String → Int := fun x => if x == n then inDeg n - 1 else inDeg x with hdef2
    set queue2 : List String := if (inDeg n - 1) == 0 then queue ++ [n] else queue with hqdef2
    have hdeg2n : inDeg2 n = inDeg n - 1 := by simp [hdef2]
    have hdeg2x : ∀ x, x ≠ n → inDeg2 x = inDeg x := by
      intro x hx; simp [hdef2, hx]
    have h2 : ∀ x, (occ x rest : Int) ≤ inDeg2 x := by
      intro x
      by_cases hx : x = n
      · subst hx
        have h1 := h x
        rw [hoccn] at h1
        rw [hdeg2n]
        push_cast at h1
        omega
      · rw [hdeg2x x hx]
        have h1 := h x
        rw [hoccx x hx] at h1
        exact h1
    have hq2 : ∀ x ∈ queue2, inDeg2 x = 0 := by
      intro x hx
      rw [hqdef2] at hx
      by_cases hd : inDeg n - 1 = 0
      · rw [if_pos (by simpa using hd)] at hx
        rcases List.mem_append.mp hx with hx' | hx'
        · have hxn : x ≠ n := fun hc => hnq (by rw [hc] at hx'; exact hx')
          rw [hdeg2x x hxn]
          exact hq x hx'
        · have hxn : x = n := by simpa using hx'
          rw [hxn, hdeg2n]
          exact hd
      · rw [if_neg (by simpa using hd)] at hx
        have hxn : x ≠ n := fun hc => hnq (by rw [hc] at hx; exact hx)
        rw [hdeg2x x hxn]
        exact hq x hx
    have hnd2 : queue2.Nodup := by
      rw [hqdef2]
      by_cases hd : inDeg n - 1 = 0
      · rw [if_pos (by simpa using hd)]
        rw [List.nodup_append]
        exact ⟨hnd, List.nodup_singleton n, by
          intro x hx hx'
          have : x = n := by simpa using hx'
          exact hnq (this ▸ hx)⟩
      · rw [if_neg (by simpa using hd)]
        exact hnd
    obtain ⟨iha, ihb, ihd⟩ := ih inDeg2 queue2 h2 hq2 hnd2
    refine ⟨fun x => ?_, fun x => ?_, ihd⟩
    · rw [iha x]
      by_cases hx : x = n
      · subst hx
        rw [hdeg2n, hoccn]
        push_cast
        ring
      · rw [hdeg2x x hx, hoccx x hx]
    · rw [ihb x]
      have hq2mem : x ∈ queue2 ↔ (x ∈ queue ∨ (x = n ∧ inDeg n - 1 = 0)) := by
        rw [hqdef2]
        by_cases hd : inDeg n - 1 = 0
        · rw [if_pos (by simpa using hd)]
          simp [hd]
        · rw [if_neg (by simpa using hd)]
          simp [hd]
      rw [hq2mem]
      constructor
      · rintro ((hx | ⟨hx1, hx2⟩) | ⟨hx1, hx2⟩)
        · exact Or.inl hx
        · subst hx1
          refine Or.inr ⟨List.mem_cons_self x rest, ?_⟩
          have h1 := h x
          rw [hoccn]
          rw [hoccn] at h1
          push_cast at h1 ⊢
          omega
        · by_cases hx : x = n
          · subst hx
            refine Or.inr ⟨List.mem_cons_self x rest, ?_⟩
            rw [hdeg2n] at hx2
            rw [hoccn]
            push_cast at hx2 ⊢
            omega
          · refine Or.inr ⟨List.mem_cons_of_mem n hx1, ?_⟩
            rw [hdeg2x x hx] at hx2
            rw [hoccx x hx]
            exact hx2
      · rintro (hx | ⟨hx1, hx2⟩)
        · exact Or.inl (Or.inl hx)
        · by_cases hx : x = n
          · subst hx
            rw [hoccn] at hx2
            by_cases hocc0 : occ x rest = 0
            · refine Or.inl (Or.inr ⟨rfl, ?_⟩)
              rw [hocc0] at hx2
              push_cast at hx2
              omega
            · refine Or.inr ⟨(occ_pos_iff x rest).mp (Nat.pos_of_ne_zero hocc0), ?_⟩
              rw [hdeg2n]
              push_cast at hx2 ⊢
              omega
          · refine Or.inr ⟨?_, ?_⟩
            · rcases List.mem_cons.mp hx1 with h' | h'
              · exact absurd h' hx
              · exact h'
            · rw [hdeg2x x hx, ← hoccx x hx]
              exact hx2

/-- Number of filtered edges into `x` whose source has not yet been
dequeued: the value `inDegree[x]` holds at any point of the loop where the
dequeued nodes so far are exactly `order`. -/
def unproc (nodes : List PipelineNode) (edges : List PipelineEdge)
    (order : List String) (x : String) : Nat :=
  ((filteredEdges nodes edges).filter
    (fun e => e.target == x && !(order.contains e.source))).length

theorem graph_mem (nodes : List PipelineNode) (edges : List PipelineEdge)
    (s x : String) :
    x ∈ graphOf nodes edges s ↔
      ∃ e ∈ filteredEdges nodes edges, e.source = s ∧ e.target = x := by
  unfold graphOf
  rw [List.mem_filterMap]
  constructor
  · rintro ⟨e, he, hfe⟩
    by_cases hs : (e.source == s) = true
    · rw [if_pos hs] at hfe
      exact ⟨e, he, by simpa using hs, by injection hfe⟩
    · rw [if_neg hs] at hfe
      cases hfe
  · rintro ⟨e, he, hs, ht⟩
    exact ⟨e, he, by simp [hs, ht]⟩

theorem occ_filterMap_targets (s x : String) :
    ∀ (L : List PipelineEdge),
      occ x (L.filterMap (fun e => if e.source == s then some e.target else none)) =
      (L.filter (fun e => e.source == s && e.target == x)).length := by
  intro L
  induction L with
  | nil => simp [occ_nil]
  | cons e rest ih =>
    by_cases hs : (e.source == s) = true
    · rw [List.filterMap_cons_some (by rw [if_pos hs])]
      by_cases ht : e.target = x
      · rw [List.filter_cons_of_pos (by simp [hs, ht]), occ_cons, if_pos ht,
          ih, List.length_cons]
      · rw [List.filter_cons_of_neg (by simp [ht]), occ_cons, if_neg ht, ih,
          Nat.add_zero]
    · have hs' : (e.source == s) = false := by simpa using hs
      rw [List.filterMap_cons_none (by rw [if_neg hs]),
        List.filter_cons_of_neg (by simp [hs']), ih]

theorem filter_unproc_split (order : List String) (current : String)
    (hcur : current ∉ order) (x : String) :
    ∀ (L : List PipelineEdge),
      (L.filter (fun e => e.target == x && !(order.contains e.source))).length =
      (L.filter (fun e =>
        e.target == x && !((order ++ [current]).contains e.source))).length +
      (L.filter (fun e => e.source == current && e.target == x)).length := by
  intro L
  induction L with
  | nil => simp
  | cons e rest ih =>
    have hq1 : (List.filter (fun e => e.target == x &&
        !(order.contains e.source)) (e :: rest)).length =
        (List.filter (fun e => e.target == x &&
          !(order.contains e.source)) rest).length +
        (if (e.target == x && !(order.contains e.source)) = true
          then 1 else 0) := by
      rw [List.filter_cons]
      by_cases hc : (e.target == x && !(order.contains e.source)) = true
      · rw [if_pos hc, if_pos hc, List.length_cons]
      · rw [if_neg hc, if_neg hc, Nat.add_zero]
    have hq2 : (List.filter (fun e => e.target == x &&
        !((order ++ [current]).contains e.source)) (e :: rest)).length =
        (List.filter (fun e => e.target == x &&
          !((order ++ [current]).contains e.source)) rest).length +
        (if (e.target == x && !((order ++ [current]).contains e.source)) = true
          then 1 else 0) := by
      rw [List.filter_cons]
      by_cases hc : (e.target == x &&
          !((order ++ [current]).contains e.source)) = true
      · rw [if_pos hc, if_pos hc, List.length_cons]
      · rw [if_neg hc, if_neg hc, Nat.add_zero]
    have hq3 : (List.filter (fun e => e.source == current &&
        e.target == x) (e :: rest)).length =
        (List.filter (fun e => e.source == current &&
          e.target == x) rest).length +
        (if (e.source == current && e.target == x) = true then 1 else 0) := by
      rw [List.filter_cons]
      by_cases hc : (e.source == current && e.target == x) = true
      · rw [if_pos hc, if_pos hc, List.length_cons]
      · rw [if_neg hc, if_neg hc, Nat.add_zero]
    rw [hq1, hq2, hq3]
    by_cases ht : e.target = x
    · by_cases hsc : e.source = current
      · have h1 : (e.target == x && !(order.contains e.source)) = true := by
          simp [ht, hsc]
          exact hcur
        have h2 : (e.target == x &&
            !((order ++ [current]).contains e.source)) = false := by
          simp [ht, hsc]
        have h3 : (e.source == current && e.target == x) = true := by
          simp [ht, hsc]
        rw [show (if ((e.target == x && !(order.contains e.source)) = true)
            then 1 else 0) = 1 from (by rw [h1]; decide),
          show (if ((e.target == x &&
            !((order ++ [current]).contains e.source)) = true)
            then 1 else 0) = 0 from (by rw [h2]; decide),
          show (if ((e.source == current && e.target == x) = true)
            then 1 else 0) = 1 from (by rw [h3]; decide)]
        omega
      · by_cases hso : e.source ∈ order
        · have h1 : (e.target == x && !(order.contains e.source)) = false := by
            simp [ht, hso]
          have h2 : (e.target == x &&
              !((order ++ [current]).contains e.source)) = false := by
            simp [ht, hso]
          have h3 : (e.source == current && e.target == x) = false := by
            simp [hsc]
          rw [show (if ((e.target == x && !(order.contains e.source)) = true)
              then 1 else 0) = 0 from (by rw [h1]; decide),
            show (if ((e.target == x &&
              !((order ++ [current]).contains e.source)) = true)
              then 1 else 0) = 0 from (by rw [h2]; decide),
            show (if ((e.source == current && e.target == x) = true)
              then 1 else 0) = 0 from (by rw [h3]; decide)]
          omega
        · have h1 : (e.target == x && !(order.contains e.source)) = true := by
            simp [ht, hso]
          have h2 : (e.target == x &&
              !((order ++ [current]).contains e.source)) = true := by
            simp [ht, hso, hsc]
          have h3 : (e.source == current && e.target == x) = false := by
            simp [hsc]
          rw [show (if ((e.target == x && !(order.contains e.source)) = true)
              then 1 else 0) = 1 from (by rw [h1]; decide),
            show (if ((e.target == x &&
              !((order ++ [current]).contains e.source)) = true)
              then 1 else 0) = 1 from (by rw [h2]; decide),
            show (if ((e.source == current && e.target == x) = true)
              then 1 else 0) = 0 from (by rw [h3]; decide)]
          omega
    · have h1 : (e.target == x && !(order.contains e.source)) = false := by
        simp [ht]
      have h2 : (e.target == x &&
          !((order ++ [current]).contains e.source)) = false := by
        simp [ht]
      have h3 : (e.source == current && e.target == x) = false := by
        simp [ht]
      rw [show (if ((e.target == x && !(order.contains e.source)) = true)
          then 1 else 0) = 0 from (by rw [h1]; decide),
        show (if ((e.target == x &&
          !((order ++ [current]).contains e.source)) = true)
          then 1 else 0) = 0 from (by rw [h2]; decide),
        show (if ((e.source == current && e.target == x) = true)
          then 1 else 0) = 0 from (by rw [h3]; decide)]
      omega

theorem filteredEdges_mem_keys (nodes : List PipelineNode)
    (edges : List PipelineEdge) :
    ∀ e ∈ filteredEdges nodes edges,
      e.source ∈ nodeKeys nodes ∧ e.target ∈ nodeKeys nodes := by
  intro e he
  have h := List.mem_filter.mp he
  have h2 := h.2
  simp at h2
  rw [nodeKeys_mem, nodeKeys_mem]
  simp only [List.mem_map]
  exact ⟨⟨h2.1.choose, h2.1.choose_spec.1, h2.1.choose_spec.2⟩,
    ⟨h2.2.choose, h2.2.choose_spec.1, h2.2.choose_spec.2⟩⟩

theorem kahnLoop_zero (graph : String → List String) (inDeg : String → Int)
    (queue order : List String) :
    kahnLoop graph 0 inDeg queue order = order := rfl

theorem kahnLoop_nil (graph : String → List String) (fuel : Nat)
    (inDeg : String → Int) (order : List String) :
    kahnLoop graph (fuel + 1) inDeg [] order = order := rfl

theorem kahnLoop_cons (graph : String → List String) (fuel : Nat)
    (inDeg : String → Int) (current : String) (restQ order : List String) :
    kahnLoop graph (fuel + 1) inDeg (current :: restQ) order =
      kahnLoop graph fuel
        (processNeighbors inDeg restQ (graph current)).1
        (processNeighbors inDeg restQ (graph current)).2
        (order ++ [current]) := rfl

theorem kahnLoop_invariant (nodes : List PipelineNode)
    (edges : List PipelineEdge) :
    ∀ (fuel : Nat) (inDeg : String → Int) (queue order : List String),
      (order ++ queue).Nodup →
      (∀ x ∈ order ++ queue, x ∈ nodeKeys nodes) →
      (∀ x, inDeg x = (unproc nodes edges order x : Int)) →
      (∀ x ∈ queue, inDeg x = 0) →
      (∀ e ∈ filteredEdges nodes edges, e.target ∈ order →
        e.source ∈ order ∧ order.indexOf e.source < order.indexOf e.target) →
      (kahnLoop (graphOf nodes edges) fuel inDeg queue order).Nodup ∧
      (∀ x ∈ kahnLoop (graphOf nodes edges) fuel inDeg queue order,
        x ∈ nodeKeys nodes) ∧
      (∀ e ∈ filteredEdges nodes edges,
        e.target ∈ kahnLoop (graphOf nodes edges) fuel inDeg queue order →
        e.source ∈ kahnLoop (graphOf nodes edges) fuel inDeg queue order ∧
        (kahnLoop (graphOf nodes edges) fuel inDeg queue order).indexOf
            e.source <
          (kahnLoop (graphOf nodes edges) fuel inDeg queue order).indexOf
            e.target) := by
  intro fuel
  induction fuel with
  | zero =>
    intro inDeg queue order hnd hkeys hdeg hq htopo
    rw [kahnLoop_zero]
    exact ⟨(List.nodup_append.mp hnd).1,
      fun x hx => hkeys x (List.mem_append_left _ hx), htopo⟩
  | succ fuel ih =>
    intro inDeg queue order hnd hkeys hdeg hq htopo
    rcases queue with _ | ⟨current, restQ⟩
    · rw [kahnLoop_nil]
      rw [List.append_nil] at hnd hkeys
      exact ⟨hnd, hkeys, htopo⟩
    · obtain ⟨hordnd, hqnd, hdisj⟩ := List.nodup_append.mp hnd
      have hcurno : current ∉ order :=
        fun hc => hdisj hc (List.mem_cons_self _ _)
      have hcurq : current ∉ restQ := (List.nodup_cons.mp hqnd).1
      have hrestnd : restQ.Nodup := (List.nodup_cons.mp hqnd).2
      have hqcur : inDeg current = 0 := hq current (List.mem_cons_self _ _)
      have hocc : ∀ x, occ x (graphOf nodes edges current) =
          ((filteredEdges nodes edges).filter
            (fun e => e.source == current && e.target == x)).length := by
        intro x
        unfold graphOf
        exact occ_filterMap_targets current x (filteredEdges nodes edges)
      have h_count : ∀ x,
          (occ x (graphOf nodes edges current) : Int) ≤ inDeg x := by
        intro x
        rw [hdeg x, hocc x]
        unfold unproc
        have hmono := length_filter_mono (filteredEdges nodes edges)
          (fun e => e.source == current && e.target == x)
          (fun e => e.target == x && !(order.contains e.source))
          (by
            intro a ha
            simp at ha
            simp [ha.1, ha.2]
            exact hcurno)
        exact_mod_cast hmono
      have hq0' : ∀ x ∈ restQ, inDeg x = 0 :=
        fun x hx => hq x (List.mem_cons_of_mem _ hx)
      obtain ⟨pa, pb, pd⟩ := processNeighbors_spec
        (graphOf nodes edges current) inDeg restQ h_count hq0' hrestnd
      have hnotord : ∀ x ∈ (processNeighbors inDeg restQ
          (graphOf nodes edges current)).2, x ∉ order ∧ x ≠ current := by
        intro x hx
        rcases (pb x).mp hx with hx' | ⟨hxl, hxd⟩
        · exact ⟨fun hc => hdisj hc (List.mem_cons_of_mem _ hx'),
            fun hc => hcurq (hc ▸ hx')⟩
        · have hoccpos : 0 < occ x (graphOf nodes edges current) :=
            (occ_pos_iff _ _).mpr hxl
          constructor
          · intro hc
            obtain ⟨e, he, hs, ht⟩ := (graph_mem nodes edges current x).mp hxl
            have hsrc := (htopo e he (by rw [ht]; exact hc)).1
            rw [hs] at hsrc
            exact hcurno hsrc
          · intro hc
            subst hc
            rw [hqcur] at hxd
            omega
      have hnd' : ((order ++ [current]) ++ (processNeighbors inDeg restQ
          (graphOf nodes edges current)).2).Nodup := by
        rw [List.nodup_append]
        refine ⟨?_, pd, ?_⟩
        · rw [List.nodup_append]
          refine ⟨hordnd, List.nodup_singleton current, ?_⟩
          intro a ha ha'
          have : a = current := by simpa using ha'
          exact hcurno (this ▸ ha)
        · intro a ha hap
          obtain ⟨hno, hnc⟩ := hnotord a hap
          rcases List.mem_append.mp ha with h | h
          · exact hno h
          · exact hnc (by simpa using h)
      have hkeys' : ∀ x ∈ (order ++ [current]) ++ (processNeighbors inDeg
          restQ (graphOf nodes edges current)).2, x ∈ nodeKeys nodes := by
        intro x hx
        rcases List.mem_append.mp hx with hx' | hx'
        · rcases List.mem_append.mp hx' with h | h
          · exact hkeys x (List.mem_append_left _ h)
          · have : x = current := by simpa using h
            subst this
            exact hkeys x (List.mem_append_right _ (List.mem_cons_self _ _))
        · rcases (pb x).mp hx' with h | ⟨hxl, _⟩
          · exact hkeys x
              (List.mem_append_right _ (List.mem_cons_of_mem _ h))
          · obtain ⟨e, he, hs, ht⟩ := (graph_mem nodes edges current x).mp hxl
            exact ht ▸ (filteredEdges_mem_keys nodes edges e he).2
      have hdeg' : ∀ x, (processNeighbors inDeg restQ
          (graphOf nodes edges current)).1 x =
          (unproc nodes edges (order ++ [current]) x : Int) := by
        intro x
        rw [pa x, hdeg x, hocc x]
        have hsplit := filter_unproc_split order current hcurno x
          (filteredEdges nodes edges)
        unfold unproc
        omega
      have hq' : ∀ x ∈ (processNeighbors inDeg restQ
          (graphOf nodes edges current)).2, (processNeighbors inDeg restQ
          (graphOf nodes edges current)).1 x = 0 := by
        intro x hx
        rw [pa x]
        rcases (pb x).mp hx with h | ⟨hxl, hxd⟩
        · have h0 := hq x (List.mem_cons_of_mem _ h)
          have hcnt := h_count x
          rw [h0] at hcnt
          rw [h0]
          omega
        · omega
      have htopo' : ∀ e ∈ filteredEdges nodes edges,
          e.target ∈ order ++ [current] →
          e.source ∈ order ++ [current] ∧
          (order ++ [current]).indexOf e.source <
            (order ++ [current]).indexOf e.target := by
        intro e he htgt
        rcases List.mem_append.mp htgt with hin | hin
        · obtain ⟨hsrc, hidx⟩ := htopo e he hin
          refine ⟨List.mem_append_left _ hsrc, ?_⟩
          rw [List.indexOf_append_of_mem hsrc, List.indexOf_append_of_mem hin]
          exact hidx
        · have hteq : e.target = current := by simpa using hin
          have hzero : unproc nodes edges order current = 0 := by
            have h0 := hdeg current
            rw [hqcur] at h0
            exact_mod_cast h0.symm
          have hsrc : e.source ∈ order := by
            by_contra hns
            unfold unproc at hzero
            rw [List.length_eq_zero] at hzero
            have : e ∈ (filteredEdges nodes edges).filter
                (fun e => e.target == current && !(order.contains e.source)) := by
              rw [List.mem_filter]
              refine ⟨he, ?_⟩
              simp [hteq]
              exact hns
            rw [hzero] at this
            cases this
          refine ⟨List.mem_append_left _ hsrc, ?_⟩
          rw [List.indexOf_append_of_mem hsrc, hteq,
            indexOf_append_new order current hcurno]
          exact List.indexOf_lt_length.mpr hsrc
      rw [kahnLoop_cons]
      exact ih (processNeighbors inDeg restQ (graphOf nodes edges current)).1
        (processNeighbors inDeg restQ (graphOf nodes edges current)).2
        (order ++ [current]) hnd' hkeys' hdeg' hq' htopo'

theorem kahnOrder_props (nodes : List PipelineNode)
    (edges : List PipelineEdge) :
    (kahnOrder nodes edges).Nodup ∧
    (∀ x ∈ kahnOrder nodes edges, x ∈ nodeKeys nodes) ∧
    (∀ e ∈ filteredEdges nodes edges, e.target ∈ kahnOrder nodes edges →
      e.source ∈ kahnOrder nodes edges ∧
      (kahnOrder nodes edges).indexOf e.source <
        (kahnOrder nodes edges).indexOf e.target) := by
  unfold kahnOrder
  refine kahnLoop_invariant nodes edges (nodes.length + 1)
    (inDegreeOf nodes edges) (seedQueue nodes edges) [] ?_ ?_ ?_ ?_ ?_
  · rw [List.nil_append]
    exact List.Nodup.filter _ (nodeKeys_nodup nodes)
  · intro x hx
    rw [List.nil_append] at hx
    exact (List.mem_filter.mp hx).1
  · intro x
    unfold inDegreeOf unproc
    have hcongr : List.filter
        (fun e => e.target == x && !([] : List String).contains e.source)
        (filteredEdges nodes edges) =
        List.filter (fun e => e.target == x) (filteredEdges nodes edges) := by
      apply List.filter_congr
      intro e he
      simp
    rw [hcongr]
  · intro x hx
    have h := (List.mem_filter.mp hx).2
    simpa using h
  · intro e he htgt
    cases htgt

/-- C2: whenever `getExecutionOrder` returns an order, the order is a
permutation of the node ids (each exactly once, nothing else), and the
source of every edge between present nodes appears strictly before its
target: a topological order of the filtered graph. -/
theorem c2_getExecutionOrder_topological (nodes : List PipelineNode)
    (edges : List PipelineEdge) (order : List String)
    (hok : getExecutionOrder nodes edges = Except.ok order) :
    order.Perm (nodes.map (fun n => n.id)) ∧
    ∀ e ∈ edges, e.source ∈ nodes.map (fun n => n.id) →
      e.target ∈ nodes.map (fun n => n.id) →
      order.indexOf e.source < order.indexOf e.target := by
  unfold getExecutionOrder at hok
  by_cases hlen : (kahnOrder nodes edges).length = nodes.length
  · rw [if_pos hlen] at hok
    have horder : order = kahnOrder nodes edges :=
      (Except.ok.injEq _ _).mp hok.symm
    subst horder
    obtain ⟨hnodup, hsub, htopo⟩ := kahnOrder_props nodes edges
    have hsubperm : (kahnOrder nodes edges).Subperm (nodeKeys nodes) :=
      List.subperm_of_subset hnodup (fun x hx => hsub x hx)
    have hk1 : (nodeKeys nodes).length ≤
        (nodes.map (fun n => n.id)).length :=
      (nodeKeys_sublist nodes).length_le
    have hk2 : (nodes.map (fun n => n.id)).length = nodes.length :=
      List.length_map _ _
    have hk3 : (kahnOrder nodes edges).length ≤ (nodeKeys nodes).length :=
      hsubperm.length_le
    have hkeq : nodeKeys nodes = nodes.map (fun n => n.id) :=
      (nodeKeys_sublist nodes).eq_of_length (by omega)
    have hperm : (kahnOrder nodes edges).Perm (nodeKeys nodes) :=
      hsubperm.perm_of_length_le (by omega)
    rw [hkeq] at hperm
    refine ⟨hperm, ?_⟩
    intro e he hs ht
    have hef : e ∈ filteredEdges nodes edges :=
      List.mem_filter.mpr ⟨he, by simp [hs, ht]⟩
    have htmem : e.target ∈ kahnOrder nodes edges := hperm.mem_iff.mpr ht
    exact (htopo e hef htmem).2
  · rw [if_neg hlen] at hok
    cases hok

/-- C3: when the Kahn loop's order does not cover every node, the
scheduler throws the cycles-or-disconnected error and never returns a
partial order. -/
theorem c3_cycle_fails (nodes : List PipelineNode)
    (edges : List PipelineEdge)
    (h : (kahnOrder nodes edges).length ≠ nodes.length) :
    getExecutionOrder nodes edges =
      Except.error "Pipeline contains cycles or disconnected nodes" ∧
    ∀ order, getExecutionOrder nodes edges ≠ Except.ok order := by
  unfold getExecutionOrder
  rw [if_neg h]
  exact ⟨rfl, fun order hc => by cases hc⟩

/-- C8: edges with a missing endpoint never influence the scheduler: the
call behaves exactly as on the input with those edges removed. -/
theorem c8_missing_endpoint_edges_ignored (nodes : List PipelineNode)
    (edges : List PipelineEdge) :
    getExecutionOrder nodes edges =
      getExecutionOrder nodes (filteredEdges nodes edges) := by
  have hidem : filteredEdges nodes (filteredEdges nodes edges) =
      filteredEdges nodes edges := by
    unfold filteredEdges
    rw [List.filter_filter]
    apply List.filter_congr
    intro a ha
    rw [Bool.and_self]
  have h1 : graphOf nodes (filteredEdges nodes edges) =
      graphOf nodes edges := by
    funext s
    unfold graphOf
    rw [hidem]
  have h2 : inDegreeOf nodes (filteredEdges nodes edges) =
      inDegreeOf nodes edges := by
    funext t
    unfold inDegreeOf
    rw [hidem]
  have h3 : seedQueue nodes (filteredEdges nodes edges) =
      seedQueue nodes edges := by
    unfold seedQueue
    rw [h2]
  have h4 : kahnOrder nodes (filteredEdges nodes edges) =
      kahnOrder nodes edges := by
    unfold kahnOrder
    rw [h1, h2, h3]
  unfold getExecutionOrder
  rw [h4]

/-- Concrete three-node linear pipeline: the repository's own test
fixture ("should return nodes in topological order"). -/
def sampleNodes : List PipelineNode :=
  [{ id := "node1", type := "Data Source", name := "Source",
     position := (0, 0) },
   { id := "node2", type := "Transformer", name := "Transform",
     position := (0, 0) },
   { id := "node3", type := "Sink", name := "Sink", position := (0, 0) }]

def sampleEdges : List PipelineEdge :=
  [{ id := "e1", source := "node1", target := "node2" },
   { id := "e2", source := "node2", target := "node3" }]

/-- Concrete two-node cycle: the repository's "should throw error for
cycles" fixture. -/
def cycleNodes : List PipelineNode :=
  [{ id := "node1", type := "Data Source", name := "Source",
     position := (0, 0) },
   { id := "node2", type := "Transformer", name := "Transform",
     position := (0, 0) }]

def cycleEdges : List PipelineEdge :=
  [{ id := "e1", source := "node1", target := "node2" },
   { id := "e2", source := "node2", target := "node1" }]

/-- C2 witness: on the three-node chain the scheduler returns exactly
node1, node2, node3, and the theorem's conclusions hold there. -/
theorem c2_witness :
    (["node1", "node2", "node3"] : List String).Perm
      (sampleNodes.map (fun n => n.id)) ∧
    ∀ e ∈ sampleEdges, e.source ∈ sampleNodes.map (fun n => n.id) →
      e.target ∈ sampleNodes.map (fun n => n.id) →
      (["node1", "node2", "node3"] : List String).indexOf e.source <
        (["node1", "node2", "node3"] : List String).indexOf e.target :=
  c2_getExecutionOrder_topological sampleNodes sampleEdges
    ["node1", "node2", "node3"] rfl

/-- C3 witness: for the two-node cycle the Kahn order is empty, so the
scheduler fails with the cycles-or-disconnected error. -/
theorem c3_witness :
    getExecutionOrder cycleNodes cycleEdges =
      Except.error "Pipeline contains cycles or disconnected nodes" :=
  (c3_cycle_fails cycleNodes cycleEdges (by decide)).1

/-! ## Execution Driver lemmas -/

theorem runLoop_nil (N : List RFNode)
    (perform : String → String → String → Except String ExecutionLog)
    (s : AppState) :
    runLoop N perform [] s = (s, none, []) := rfl

theorem runLoop_cons_none (N : List RFNode)
    (perform : String → String → String → Except String ExecutionLog)
    (nodeId : String) (rest : List String) (s : AppState)
    (hfind : N.find? (fun n => n.id == nodeId) = none) :
    runLoop N perform (nodeId :: rest) s = runLoop N perform rest s := by
  rw [runLoop, hfind]

theorem runLoop_cons_ok (N : List RFNode)
    (perform : String → String → String → Except String ExecutionLog)
    (nodeId : String) (rest : List String) (s : AppState) (node : RFNode)
    (log : ExecutionLog)
    (hfind : N.find? (fun n => n.id == nodeId) = some node)
    (hperf : perform node.id node.label node.type = Except.ok log) :
    runLoop N perform (nodeId :: rest) s =
      (let s1 : AppState :=
        { s with nodes := setStatus s.nodes nodeId NodeStatus.running }
       let s2 : AppState := { s1 with logs := s1.logs ++ [log] }
       let s3 : AppState :=
        { s2 with nodes := setStatus s2.nodes nodeId NodeStatus.completed }
       let r := runLoop N perform rest s3
       (r.1, r.2.1, s1 :: s2 :: s3 :: r.2.2)) := by
  rw [runLoop, hfind]
  simp only [hperf]

theorem runLoop_cons_error (N : List RFNode)
    (perform : String → String → String → Except String ExecutionLog)
    (nodeId : String) (rest : List String) (s : AppState) (node : RFNode)
    (msg : String)
    (hfind : N.find? (fun n => n.id == nodeId) = some node)
    (hperf : perform node.id node.label node.type = Except.error msg) :
    runLoop N perform (nodeId :: rest) s =
      ({ s with nodes := setStatus s.nodes nodeId NodeStatus.running },
        some msg,
        [{ s with nodes := setStatus s.nodes nodeId NodeStatus.running }]) := by
  rw [runLoop, hfind]
  simp only [hperf]

theorem handleExecute_empty (s : AppState) (edges : List PipelineEdge)
    (perform : String → String → String → Except String ExecutionLog)
    (h : s.nodes.length = 0) :
    handleExecute s edges perform = (s, []) := by
  rw [handleExecute, if_pos h]

theorem handleExecute_schedError (s : AppState) (edges : List PipelineEdge)
    (perform : String → String → String → Except String ExecutionLog)
    (msg : String) (h : ¬ s.nodes.length = 0)
    (he : getExecutionOrder (toPipelineNodes s.nodes) edges =
      Except.error msg) :
    handleExecute s edges perform =
      ({ startState s with
          logs := (startState s).logs ++ [systemErrorLog msg],
          isExecuting := false },
        [startState s,
         { startState s with
            logs := (startState s).logs ++ [systemErrorLog msg] },
         { startState s with
            logs := (startState s).logs ++ [systemErrorLog msg],
            isExecuting := false }]) := by
  rw [handleExecute, if_neg h, he]

theorem handleExecute_run_ok (s : AppState) (edges : List PipelineEdge)
    (perform : String → String → String → Except String ExecutionLog)
    (order : List String) (a : AppState) (tr : List AppState)
    (h : ¬ s.nodes.length = 0)
    (hok : getExecutionOrder (toPipelineNodes s.nodes) edges =
      Except.ok order)
    (hrun : runLoop s.nodes perform order (startState s) = (a, none, tr)) :
    handleExecute s edges perform =
      ({ a with isExecuting := false },
        startState s :: tr ++ [{ a with isExecuting := false }]) := by
  rw [handleExecute, if_neg h, hok]
  simp only [hrun]

theorem handleExecute_run_error (s : AppState) (edges : List PipelineEdge)
    (perform : String → String → String → Except String ExecutionLog)
    (order : List String) (a : AppState) (tr : List AppState) (msg : String)
    (h : ¬ s.nodes.length = 0)
    (hok : getExecutionOrder (toPipelineNodes s.nodes) edges =
      Except.ok order)
    (hrun : runLoop s.nodes perform order (startState s) =
      (a, some msg, tr)) :
    handleExecute s edges perform =
      ({ a with
          logs := a.logs ++ [systemErrorLog msg],
          isExecuting := false },
        startState s :: tr ++
          [{ a with logs := a.logs ++ [systemErrorLog msg] },
           { a with
              logs := a.logs ++ [systemErrorLog msg],
              isExecuting := false }]) := by
  rw [handleExecute, if_neg h, hok]
  simp only [hrun]

/-- Modelled from the spec (section 4.3): the snapshot sequence and final
state the specification describes for the executed nodes of a run whose
steps all succeed: per node, a running snapshot, a log-append snapshot and
a completed snapshot, strictly in order.  Used to compare the driver
against the spec's description. -/
def specRun (performOk : String → String → String → ExecutionLog) :
    List RFNode → AppState → AppState × List AppState
  | [], s => (s, [])
  | n :: rest, s =>
    let a : AppState :=
      { s with nodes := setStatus s.nodes n.id NodeStatus.running }
    let b : AppState :=
      { a with logs := a.logs ++ [performOk n.id n.label n.type] }
    let c : AppState :=
      { b with nodes := setStatus b.nodes n.id NodeStatus.completed }
    let r := specRun performOk rest c
    (r.1, a :: b :: c :: r.2)

/-- All nodes whose id is listed get status completed; the rest are kept. -/
def markExecuted (ids : List String) (ns : List RFNode) : List RFNode :=
  ns.map (fun n => if ids.contains n.id
    then { n with status := NodeStatus.completed } else n)

theorem setStatus_setStatus (ns : List RFNode) (i : String)
    (st1 st2 : NodeStatus) :
    setStatus (setStatus ns i st1) i st2 = setStatus ns i st2 := by
  unfold setStatus
  rw [List.map_map]
  apply List.map_congr_left
  intro n _
  by_cases h : n.id = i
  · simp [h]
  · simp [h]

theorem markExecuted_cons (i : String) (ids : List String)
    (ns : List RFNode) :
    markExecuted (i :: ids) ns =
      markExecuted ids (setStatus ns i NodeStatus.completed) := by
  unfold markExecuted setStatus
  rw [List.map_map]
  apply List.map_congr_left
  intro n _
  by_cases h1 : n.id = i
  · by_cases h2 : n.id ∈ ids
    · simp [h1, h2]
    · simp [h1, h2]
  · by_cases h2 : n.id ∈ ids
    · simp [h1, h2]
    · simp [h1, h2]

theorem executedNodes_nil (ns : List RFNode) : executedNodes ns [] = [] :=
  rfl

theorem executedNodes_cons_none (ns : List RFNode) (nodeId : String)
    (rest : List String)
    (hfind : ns.find? (fun n => n.id == nodeId) = none) :
    executedNodes ns (nodeId :: rest) = executedNodes ns rest := by
  unfold executedNodes
  rw [List.filterMap_cons, hfind]

theorem executedNodes_cons_some (ns : List RFNode) (nodeId : String)
    (rest : List String) (node : RFNode)
    (hfind : ns.find? (fun n => n.id == nodeId) = some node) :
    executedNodes ns (nodeId :: rest) = node :: executedNodes ns rest := by
  unfold executedNodes
  rw [List.filterMap_cons, hfind]

/-- The driver's loop on an all-success performer agrees exactly with the
spec's description: final state and snapshot trace of `specRun` on the
executed nodes, and no escaping error. -/
theorem runLoop_success (N : List RFNode)
    (perform : String → String → String → Except String ExecutionLog)
    (performOk : String → String → String → ExecutionLog)
    (hp : ∀ i l t, perform i l t = Except.ok (performOk i l t)) :
    ∀ (order : List String) (s : AppState),
      runLoop N perform order s =
        ((specRun performOk (executedNodes N order) s).1, none,
          (specRun performOk (executedNodes N order) s).2) := by
  intro order
  induction order with
  | nil => intro s; rfl
  | cons nodeId rest ih =>
    intro s
    rcases hfind : N.find? (fun n => n.id == nodeId) with _ | node
    · rw [runLoop_cons_none N perform nodeId rest s hfind,
        executedNodes_cons_none N nodeId rest hfind]
      exact ih s
    · have hid : node.id = nodeId := by
        have := List.find?_some hfind
        simpa using this
      rw [runLoop_cons_ok N perform nodeId rest s node
        (performOk node.id node.label node.type) hfind (hp _ _ _),
        executedNodes_cons_some N nodeId rest node hfind]
      simp only [specRun]
      rw [hid]
      simp only [ih]

theorem specRun_final (performOk : String → String → String → ExecutionLog) :
    ∀ (ex : List RFNode) (s : AppState),
      (specRun performOk ex s).1 =
        { nodes := markExecuted (ex.map (fun n => n.id)) s.nodes,
          logs := s.logs ++ ex.map (fun n => performOk n.id n.label n.type),
          isExecuting := s.isExecuting } := by
  intro ex
  induction ex with
  | nil =>
    intro s
    simp [specRun, markExecuted]
  | cons n rest ih =>
    intro s
    simp only [specRun]
    rw [ih]
    rw [setStatus_setStatus, List.map_cons, markExecuted_cons, List.map_cons]
    simp

theorem markExecuted_idle_status (ids : List String) (ns : List RFNode) :
    ∀ m ∈ markExecuted ids
      (ns.map (fun n => { n with status := NodeStatus.idle })),
      m.status =
        (if m.id ∈ ids then NodeStatus.completed else NodeStatus.idle) := by
  intro m hm
  unfold markExecuted at hm
  rw [List.map_map] at hm
  obtain ⟨n, hn, hEq⟩ := List.mem_map.mp hm
  subst hEq
  by_cases h : n.id ∈ ids
  · simp [h]
  · simp [h]

theorem setStatus_mem_ne (ns : List RFNode) (i : String) (st : NodeStatus) :
    ∀ m ∈ setStatus ns i st, m.id ≠ i → m ∈ ns := by
  intro m hm hne
  unfold setStatus at hm
  obtain ⟨n, hn, hEq⟩ := List.mem_map.mp hm
  by_cases h : (n.id == i) = true
  · rw [if_pos h] at hEq
    exfalso
    apply hne
    rw [← hEq]
    simpa using h
  · rw [if_neg h] at hEq
    rw [← hEq]
    exact hn

/-- C5: a run over a non-empty node set with an all-success step performer
behaves as the spec states: the first exposed snapshot is the reset state
(logs cleared, all statuses idle, run-active true); the whole snapshot
trace is exactly, per executed node in scheduler order, a running
snapshot, then its log append, then a completed snapshot (ids absent from
the node set contribute nothing), ending with the run-active-false state;
the final log holds one entry per executed node in order; and at the end
run-active is false, every executed node is completed, and every other
node is idle. -/
theorem c5_success_run (s : AppState) (edges : List PipelineEdge)
    (perform : String → String → String → Except String ExecutionLog)
    (performOk : String → String → String → ExecutionLog)
    (order : List String)
    (hne : s.nodes ≠ [])
    (hp : ∀ i l t, perform i l t = Except.ok (performOk i l t))
    (hord : getExecutionOrder (toPipelineNodes s.nodes) edges =
      Except.ok order) :
    (handleExecute s edges perform).2.head? = some (startState s) ∧
    (handleExecute s edges perform).2 =
      startState s ::
        (specRun performOk (executedNodes s.nodes order) (startState s)).2 ++
        [(handleExecute s edges perform).1] ∧
    (handleExecute s edges perform).1.logs =
      (executedNodes s.nodes order).map
        (fun n => performOk n.id n.label n.type) ∧
    (handleExecute s edges perform).1.isExecuting = false ∧
    ∀ n ∈ (handleExecute s edges perform).1.nodes,
      (n.id ∈ (executedNodes s.nodes order).map (fun n => n.id) →
        n.status = NodeStatus.completed) ∧
      (n.id ∉ (executedNodes s.nodes order).map (fun n => n.id) →
        n.status = NodeStatus.idle) := by
  have hlen : ¬ s.nodes.length = 0 := by
    rw [List.length_eq_zero]
    exact hne
  have hrun := runLoop_success s.nodes perform performOk hp order
    (startState s)
  have hhe := handleExecute_run_ok s edges perform order
    (specRun performOk (executedNodes s.nodes order) (startState s)).1
    (specRun performOk (executedNodes s.nodes order) (startState s)).2
    hlen hord hrun
  rw [hhe]
  refine ⟨rfl, rfl, ?_, rfl, ?_⟩
  · show (specRun performOk (executedNodes s.nodes order)
      (startState s)).1.logs = _
    rw [specRun_final]
    simp [startState]
  · intro n hn
    have hn' : n ∈ markExecuted
        ((executedNodes s.nodes order).map (fun n => n.id))
        (s.nodes.map (fun n => { n with status := NodeStatus.idle })) := by
      have := hn
      rw [show ({ (specRun performOk (executedNodes s.nodes order)
          (startState s)).1 with isExecuting := false } : AppState).nodes =
          (specRun performOk (executedNodes s.nodes order)
            (startState s)).1.nodes from rfl, specRun_final] at this
      exact this
    have hstat := markExecuted_idle_status _ _ n hn'
    constructor
    · intro hmem
      rw [hstat, if_pos hmem]
    · intro hmem
      rw [hstat, if_neg hmem]

/-- Concrete driver fixtures: a three-node linear pipeline in component
state form, and the reference performer wrapped as an always-succeeding
step performer. -/
def sampleState : AppState :=
  { nodes :=
      [{ id := "n1", label := "Src", type := "Data Source",
         status := NodeStatus.idle, position := (0, 0) },
       { id := "n2", label := "Tr", type := "Transformer",
         status := NodeStatus.idle, position := (0, 0) },
       { id := "n3", label := "Snk", type := "Sink",
         status := NodeStatus.idle, position := (0, 0) }],
    logs := [], isExecuting := false }

def sampleDriverEdges : List PipelineEdge :=
  [{ id := "e1", source := "n1", target := "n2" },
   { id := "e2", source := "n2", target := "n3" }]

def okPerform : String → String → String → Except String ExecutionLog :=
  fun i l t => Except.ok (simulateNodeExecution i l t)

/-- A performer failing exactly at node n2, succeeding elsewhere. -/
def failPerform : String → String → String → Except String ExecutionLog :=
  fun i l t => if i == "n2" then Except.error "Transformer blew up"
    else Except.ok (simulateNodeExecution i l t)

/-- C5 witness: the hypotheses hold for the concrete three-node linear run
with the reference performer, and the final log and run-active flag are as
the theorem states. -/
theorem c5_witness :
    (handleExecute sampleState sampleDriverEdges okPerform).1.logs =
      (executedNodes sampleState.nodes ["n1", "n2", "n3"]).map
        (fun n => simulateNodeExecution n.id n.label n.type) ∧
    (handleExecute sampleState sampleDriverEdges okPerform).1.isExecuting =
      false :=
  ⟨(c5_success_run sampleState sampleDriverEdges okPerform
      simulateNodeExecution ["n1", "n2", "n3"] (by simp [sampleState])
      (fun i l t => rfl) rfl).2.2.1,
   (c5_success_run sampleState sampleDriverEdges okPerform
      simulateNodeExecution ["n1", "n2", "n3"] (by simp [sampleState])
      (fun i l t => rfl) rfl).2.2.2.1⟩

/-- The driver's loop when the order splits as successful prefix, failing
node, remainder: the prefix runs as in the success case, the failing node
is set running and its error escapes at once — nothing of the remainder
runs. -/
theorem runLoop_failure (N : List RFNode)
    (perform : String → String → String → Except String ExecutionLog)
    (performOk : String → String → String → ExecutionLog)
    (fid : String) (fnode : RFNode) (msg : String) (rest : List String)
    (hfind : N.find? (fun n => n.id == fid) = some fnode)
    (hfail : perform fnode.id fnode.label fnode.type = Except.error msg) :
    ∀ (done : List String) (s : AppState),
      (∀ n ∈ executedNodes N done,
        perform n.id n.label n.type =
          Except.ok (performOk n.id n.label n.type)) →
      runLoop N perform (done ++ fid :: rest) s =
        ({ (specRun performOk (executedNodes N done) s).1 with
            nodes := setStatus
              (specRun performOk (executedNodes N done) s).1.nodes fid
              NodeStatus.running },
          some msg,
          (specRun performOk (executedNodes N done) s).2 ++
            [{ (specRun performOk (executedNodes N done) s).1 with
                nodes := setStatus
                  (specRun performOk (executedNodes N done) s).1.nodes fid
                  NodeStatus.running }]) := by
  intro done
  induction done with
  | nil =>
    intro s hdone
    rw [List.nil_append,
      runLoop_cons_error N perform fid rest s fnode msg hfind hfail]
    rfl
  | cons d drest ih =>
    intro s hdone
    rw [List.cons_append]
    rcases hfd : N.find? (fun n => n.id == d) with _ | dnode
    · rw [runLoop_cons_none N perform d _ s hfd,
        executedNodes_cons_none N d drest hfd]
      rw [executedNodes_cons_none N d drest hfd] at hdone
      exact ih s hdone
    · have hdid : dnode.id = d := by
        have := List.find?_some hfd
        simpa using this
      have hdmem : dnode ∈ executedNodes N (d :: drest) := by
        rw [executedNodes_cons_some N d drest dnode hfd]
        exact List.mem_cons_self _ _
      have hdperf := hdone dnode hdmem
      rw [runLoop_cons_ok N perform d _ s dnode
        (performOk dnode.id dnode.label dnode.type) hfd hdperf,
        executedNodes_cons_some N d drest dnode hfd]
      have hdone' : ∀ n ∈ executedNodes N drest,
          perform n.id n.label n.type =
            Except.ok (performOk n.id n.label n.type) := by
        intro n hn
        apply hdone
        rw [executedNodes_cons_some N d drest dnode hfd]
        exact List.mem_cons_of_mem _ hn
      simp only [specRun]
      rw [hdid]
      simp only [ih _ hdone']
      simp only [List.cons_append]

/-- C4: when a step performer fails mid-run (order = successful prefix,
failing node, remainder), the driver appends exactly one system-level log
entry — node id empty, name "System", message embedding the error text —
after the prefix's logs and nothing else; no node after the failure point
is started (no log entry for it, status still idle from the reset); the
error is absorbed inside the driver (`handleExecute` returns a final state
rather than re-throwing); and run-active is false afterwards. -/
theorem c4_step_failure_fail_fast (s : AppState) (edges : List PipelineEdge)
    (perform : String → String → String → Except String ExecutionLog)
    (performOk : String → String → String → ExecutionLog)
    (done : List String) (fid : String) (rest : List String)
    (fnode : RFNode) (msg : String)
    (hne : s.nodes ≠ [])
    (hord : getExecutionOrder (toPipelineNodes s.nodes) edges =
      Except.ok (done ++ fid :: rest))
    (hdone : ∀ n ∈ executedNodes s.nodes done,
      perform n.id n.label n.type =
        Except.ok (performOk n.id n.label n.type))
    (hfind : s.nodes.find? (fun n => n.id == fid) = some fnode)
    (hfail : perform fnode.id fnode.label fnode.type = Except.error msg) :
    (handleExecute s edges perform).1.logs =
      (executedNodes s.nodes done).map
        (fun n => performOk n.id n.label n.type) ++ [systemErrorLog msg] ∧
    (systemErrorLog msg).nodeId = "" ∧
    (systemErrorLog msg).nodeName = "System" ∧
    (systemErrorLog msg).message = "Error: " ++ msg ∧
    (handleExecute s edges perform).1.isExecuting = false ∧
    ∀ n ∈ (handleExecute s edges perform).1.nodes,
      n.id ∉ (executedNodes s.nodes done).map (fun n => n.id) →
      n.id ≠ fid → n.status = NodeStatus.idle := by
  have hlen : ¬ s.nodes.length = 0 := by
    rw [List.length_eq_zero]
    exact hne
  have hrun := runLoop_failure s.nodes perform performOk fid fnode msg rest
    hfind hfail done (startState s) hdone
  have hhe := handleExecute_run_error s edges perform (done ++ fid :: rest)
    ({ (specRun performOk (executedNodes s.nodes done) (startState s)).1 with
        nodes := setStatus
          (specRun performOk (executedNodes s.nodes done)
            (startState s)).1.nodes fid NodeStatus.running })
    ((specRun performOk (executedNodes s.nodes done) (startState s)).2 ++
      [{ (specRun performOk (executedNodes s.nodes done)
            (startState s)).1 with
          nodes := setStatus
            (specRun performOk (executedNodes s.nodes done)
              (startState s)).1.nodes fid NodeStatus.running }])
    msg hlen hord hrun
  rw [hhe]
  refine ⟨?_, rfl, rfl, rfl, rfl, ?_⟩
  · show (specRun performOk (executedNodes s.nodes done)
      (startState s)).1.logs ++ [systemErrorLog msg] = _
    rw [specRun_final]
    simp [startState]
  · intro n hn hnotdone hnotfid
    have hn1 : n ∈ setStatus (specRun performOk
        (executedNodes s.nodes done) (startState s)).1.nodes fid
        NodeStatus.running := hn
    have hn2 := setStatus_mem_ne _ fid NodeStatus.running n hn1 hnotfid
    rw [specRun_final] at hn2
    have hstat := markExecuted_idle_status
      ((executedNodes s.nodes done).map (fun n => n.id)) s.nodes n hn2
    rw [hstat, if_neg hnotdone]

/-- C4 witness: the three-node linear run with the performer failing at
node n2: the final log is node n1's entry followed by the single system
entry, and run-active ends false. -/
theorem c4_witness :
    (handleExecute sampleState sampleDriverEdges failPerform).1.logs =
      (executedNodes sampleState.nodes ["n1"]).map
        (fun n => simulateNodeExecution n.id n.label n.type) ++
        [systemErrorLog "Transformer blew up"] ∧
    (handleExecute sampleState sampleDriverEdges
      failPerform).1.isExecuting = false :=
  ⟨(c4_step_failure_fail_fast sampleState sampleDriverEdges failPerform
      simulateNodeExecution ["n1"] "n2" ["n3"]
      { id := "n2", label := "Tr", type := "Transformer",
        status := NodeStatus.idle, position := (0, 0) }
      "Transformer blew up" (by simp [sampleState]) rfl
      (by
        intro n hn
        rw [show executedNodes sampleState.nodes ["n1"] =
          [{ id := "n1", label := "Src", type := "Data Source",
             status := NodeStatus.idle, position := (0, 0) }] from rfl] at hn
        simp at hn
        subst hn
        rfl) rfl
      rfl).1,
   (c4_step_failure_fail_fast sampleState sampleDriverEdges failPerform
      simulateNodeExecution ["n1"] "n2" ["n3"]
      { id := "n2", label := "Tr", type := "Transformer",
        status := NodeStatus.idle, position := (0, 0) }
      "Transformer blew up" (by simp [sampleState]) rfl
      (by
        intro n hn
        rw [show executedNodes sampleState.nodes ["n1"] =
          [{ id := "n1", label := "Src", type := "Data Source",
             status := NodeStatus.idle, position := (0, 0) }] from rfl] at hn
        simp at hn
        subst hn
        rfl) rfl
      rfl).2.2.2.2.1⟩

/-- C9: a run request with zero nodes is refused before any state write:
the state is returned untouched and no snapshot is exposed — run-active is
never set, the log is neither cleared nor appended to, and no node status
changes. -/
theorem c9_empty_pipeline_noop (s : AppState) (edges : List PipelineEdge)
    (perform : String → String → String → Except String ExecutionLog)
    (h : s.nodes = []) :
    handleExecute s edges perform = (s, []) :=
  handleExecute_empty s edges perform (by rw [h]; rfl)

def emptyState : AppState := { nodes := [], logs := [], isExecuting := false }

/-- C9 witness: the empty pipeline state is returned exactly as it was. -/
theorem c9_witness : handleExecute emptyState [] okPerform =
    (emptyState, []) :=
  c9_empty_pipeline_noop emptyState [] okPerform rfl

theorem setStatus_no_error (ns : List RFNode) (i : String) (st : NodeStatus)
    (hst : st ≠ NodeStatus.error)
    (h : ∀ n ∈ ns, n.status ≠ NodeStatus.error) :
    ∀ n ∈ setStatus ns i st, n.status ≠ NodeStatus.error := by
  intro m hm
  unfold setStatus at hm
  obtain ⟨n, hn, hEq⟩ := List.mem_map.mp hm
  subst hEq
  by_cases hc : (n.id == i) = true
  · rw [if_pos hc]
    exact hst
  · rw [if_neg hc]
    exact h n hn

theorem runLoop_no_error (N : List RFNode)
    (perform : String → String → String → Except String ExecutionLog) :
    ∀ (order : List String) (s : AppState),
      (∀ n ∈ s.nodes, n.status ≠ NodeStatus.error) →
      (∀ n ∈ (runLoop N perform order s).1.nodes,
        n.status ≠ NodeStatus.error) ∧
      (∀ st ∈ (runLoop N perform order s).2.2, ∀ n ∈ st.nodes,
        n.status ≠ NodeStatus.error) := by
  intro order
  induction order with
  | nil =>
    intro s h
    rw [runLoop_nil]
    exact ⟨h, by intro st hst; cases hst⟩
  | cons nodeId rest ih =>
    intro s h
    rcases hfd : N.find? (fun n => n.id == nodeId) with _ | node
    · rw [runLoop_cons_none N perform nodeId rest s hfd]
      exact ih s h
    · have h1 : ∀ n ∈ setStatus s.nodes nodeId NodeStatus.running,
          n.status ≠ NodeStatus.error :=
        setStatus_no_error s.nodes nodeId NodeStatus.running
          (by intro hc; cases hc) h
      rcases hperf : perform node.id node.label node.type with msg | log
      · rw [runLoop_cons_error N perform nodeId rest s node msg hfd hperf]
        refine ⟨h1, ?_⟩
        intro st hst
        have hst' : st = { s with
            nodes := setStatus s.nodes nodeId NodeStatus.running } := by
          simpa using hst
        subst hst'
        exact h1
      · rw [runLoop_cons_ok N perform nodeId rest s node log hfd hperf]
        have h2 : ∀ n ∈ setStatus (setStatus s.nodes nodeId
            NodeStatus.running) nodeId NodeStatus.completed,
            n.status ≠ NodeStatus.error :=
          setStatus_no_error _ nodeId NodeStatus.completed
            (by intro hc; cases hc) h1
        obtain ⟨iha, ihb⟩ := ih
          { nodes := setStatus (setStatus s.nodes nodeId
              NodeStatus.running) nodeId NodeStatus.completed,
            logs := s.logs ++ [log], isExecuting := s.isExecuting } h2
        refine ⟨iha, ?_⟩
        intro st hst
        rcases List.mem_cons.mp hst with hh | hst2
        · subst hh; exact h1
        rcases List.mem_cons.mp hst2 with hh | hst3
        · subst hh; exact h1
        rcases List.mem_cons.mp hst3 with hh | hst4
        · subst hh; exact h2
        · exact ihb st hst4

theorem status_tri (st : NodeStatus) (h : st ≠ NodeStatus.error) :
    st = NodeStatus.idle ∨ st = NodeStatus.running ∨
      st = NodeStatus.completed := by
  cases st
  · exact Or.inl rfl
  · exact Or.inr (Or.inl rfl)
  · exact Or.inr (Or.inr rfl)
  · exact absurd rfl h

/-- C10: the execution driver never writes the status `error`: after any
run — successful, failed at a step, rejected by the scheduler, or refused
for emptiness — every node's status in the final state and in every
exposed snapshot is one of idle, running, completed. -/
theorem c10_no_error_status (s : AppState) (edges : List PipelineEdge)
    (perform : String → String → String → Except String ExecutionLog) :
    (∀ n ∈ (handleExecute s edges perform).1.nodes,
      n.status = NodeStatus.idle ∨ n.status = NodeStatus.running ∨
        n.status = NodeStatus.completed) ∧
    (∀ st ∈ (handleExecute s edges perform).2, ∀ n ∈ st.nodes,
      n.status = NodeStatus.idle ∨ n.status = NodeStatus.running ∨
        n.status = NodeStatus.completed) := by
  by_cases hlen : s.nodes.length = 0
  · rw [handleExecute_empty s edges perform hlen]
    rw [List.length_eq_zero] at hlen
    constructor
    · intro n hn
      rw [show ((s, []) :
          AppState × List AppState).1.nodes = s.nodes from rfl, hlen] at hn
      cases hn
    · intro st hst
      cases hst
  · have hstart : ∀ n ∈ (startState s).nodes,
        n.status ≠ NodeStatus.error := by
      intro n hn
      obtain ⟨m, hm, hEq⟩ := List.mem_map.mp hn
      subst hEq
      intro hc
      cases hc
    rcases hgo : getExecutionOrder (toPipelineNodes s.nodes) edges
        with msg | ord
    · rw [handleExecute_schedError s edges perform msg hlen hgo]
      constructor
      · intro n hn
        exact status_tri n.status (hstart n hn)
      · intro st hst
        simp only [List.mem_cons, List.mem_singleton] at hst
        rcases hst with hh | hh | hh | hh
        · subst hh
          intro n hn
          exact status_tri n.status (hstart n hn)
        · subst hh
          intro n hn
          exact status_tri n.status (hstart n hn)
        · subst hh
          intro n hn
          exact status_tri n.status (hstart n hn)
        · cases hh
    · rcases hrl : runLoop s.nodes perform ord (startState s)
        with ⟨a, oerr, tr⟩
      obtain ⟨ra, rb⟩ := runLoop_no_error s.nodes perform ord
        (startState s) hstart
      rw [hrl] at ra rb
      rcases oerr with _ | msg
      · rw [handleExecute_run_ok s edges perform ord a tr hlen hgo hrl]
        constructor
        · intro n hn
          exact status_tri n.status (ra n hn)
        · intro st hst
          rcases List.mem_cons.mp hst with hh | hh
          · subst hh
            intro n hn
            exact status_tri n.status (hstart n hn)
          · rcases List.mem_append.mp hh with hh' | hh'
            · intro n hn
              exact status_tri n.status (rb st hh' n hn)
            · have : st = { a with isExecuting := false } := by
                simpa using hh'
              subst this
              intro n hn
              exact status_tri n.status (ra n hn)
      · rw [handleExecute_run_error s edges perform ord a tr msg hlen hgo
          hrl]
        constructor
        · intro n hn
          exact status_tri n.status (ra n hn)
        · intro st hst
          rcases List.mem_cons.mp hst with hh | hh
          · subst hh
            intro n hn
            exact status_tri n.status (hstart n hn)
          · rcases List.mem_append.mp hh with hh' | hh'
            · intro n hn
              exact status_tri n.status (rb st hh' n hn)
            · simp only [List.mem_cons, List.mem_singleton] at hh'
              rcases hh' with hh'' | hh'' | hh''
              · subst hh''
                intro n hn
                exact status_tri n.status (ra n hn)
              · subst hh''
                intro n hn
                exact status_tri n.status (ra n hn)
              · cases hh''
